import Mathlib

/-!
Verification of the KGP-WPR-TRACKER portal logic.

Strings from the Python source are modelled as lists of characters
(`Str`).  Tables (pandas DataFrames) are modelled as a list of headers
plus rows of optional cells, where `none` stands for a missing value
(NaN).  Each definition below is a direct translation of the
corresponding function or top-level fragment of
`KGP-WPR-TRACKER_streamlit_app.py`.
-/

/-- Strings of the Python source, modelled as character lists. -/
abbrev Str := List Char

/-- Characters kept by the regex `[^0-9A-Z]+` removal in `normalize_col`:
ASCII digits and uppercase letters. -/
def isDigitOrUpper (c : Char) : Bool :=
  (decide ('0' ≤ c) && decide (c ≤ '9')) || (decide ('A' ≤ c) && decide (c ≤ 'Z'))

/-- Python `str.strip()`: remove leading and trailing whitespace. -/
def stripChars (s : Str) : Str :=
  (((s.dropWhile Char.isWhitespace).reverse).dropWhile Char.isWhitespace).reverse

/-- Python `str.upper()` (ASCII). -/
def upperStr (s : Str) : Str := s.map Char.toUpper

/-- `normalize_col` from the source: strip, uppercase, then drop every
character that is not an ASCII digit or uppercase letter. -/
def normalize_col (name : Str) : Str :=
  ((stripChars name).map Char.toUpper).filter isDigitOrUpper

/-- Most-significant-first decimal digits of `n` (`fuel` bounds the
recursion; it is always called with `n ≤ fuel`). -/
def toDecAux : Nat → Nat → Str
  | 0, _ => []
  | fuel + 1, n =>
    if n = 0 then [] else toDecAux fuel (n / 10) ++ [Nat.digitChar (n % 10)]

/-- Decimal rendering of a counter value, as produced by the Python
f-string `f"{norm}_{seen[norm]}"` for the numeric part. -/
def natSuffix (n : Nat) : Str :=
  if n = 0 then ['0'] else toDecAux n n

/-- The key emitted for base key `b` at per-base occurrence counter `k`:
no suffix at counter `0`, otherwise `b` followed by an underscore and
the decimal counter. -/
def keyOf (b : Str) (k : Nat) : Str :=
  if k = 0 then b else b ++ '_' :: natSuffix k

/-- The `for col in orig_cols` loop of the source that builds
`normalized_cols` (first component) and `norm_to_orig` (second
component), threading the `seen` counter dictionary as an association
list whose most recent binding shadows older ones. -/
def buildLoop : List Str → List (Str × Nat) → List Str × List (Str × Str)
  | [], _ => ([], [])
  | col :: rest, seen =>
    let norm := normalize_col col
    match List.lookup norm seen with
    | some n =>
      let key := norm ++ '_' :: natSuffix (n + 1)
      let res := buildLoop rest ((norm, n + 1) :: seen)
      (key :: res.1, (key, col) :: res.2)
    | none =>
      let res := buildLoop rest ((norm, 0) :: seen)
      (norm :: res.1, (norm, col) :: res.2)

/-- `normalized_cols` of the source: the canonical key for each header,
in header order. -/
def normalized_cols (cols : List Str) : List Str := (buildLoop cols []).1

/-- `norm_to_orig` of the source: canonical key to original header. -/
def norm_to_orig (cols : List Str) : List (Str × Str) := (buildLoop cols []).2

/-- Number of occurrences of the base key `b` in a history of base keys. -/
def cntBase (b : Str) (hist : List Str) : Nat :=
  (hist.filter (fun h => h == b)).length

/-- Modelled from the spec: the key sequence described by the spec's
words, where each header's key is its base key tagged with the number
of earlier headers sharing that base key (`hist` is the list of base
keys already processed). -/
def specKeys : List Str → List Str → List Str
  | [], _ => []
  | col :: rest, hist =>
    let norm := normalize_col col
    keyOf norm (cntBase norm hist) :: specKeys rest (hist ++ [norm])

/-- The correspondence between the loop's `seen` dictionary and the
history of base keys already processed. -/
def seenMatches (seen : List (Str × Nat)) (hist : List Str) : Prop :=
  ∀ b : Str, List.lookup b seen =
    if cntBase b hist = 0 then none else some (cntBase b hist - 1)

/-- Whether `pre` is an initial segment of `s` (helper for substring). -/
def startsWithCL : Str → Str → Bool
  | [], _ => true
  | _ :: _, [] => false
  | a :: as, b :: bs => a == b && startsWithCL as bs

/-- Python `needle in hay` substring containment. -/
def hasSub (needle : Str) : Str → Bool
  | [] => needle.isEmpty
  | c :: rest => startsWithCL needle (c :: rest) || hasSub needle rest

def strDATE : Str := ['D', 'A', 'T', 'E']
def strTIME : Str := ['T', 'I', 'M', 'E']

/-- `get_date_column` from the source: collect the headers that contain
"DATE" or "TIME" (case-insensitively) and, among those, contain "DATE"
but not "TIME"; return the first collected header, if any. -/
def get_date_column (cols : List Str) : Option Str :=
  let date_columns := cols.filter (fun col =>
    if hasSub strDATE (upperStr col) || hasSub strTIME (upperStr col) then
      hasSub strDATE (upperStr col) && !(hasSub strTIME (upperStr col))
    else false)
  date_columns.head?

/-- A loaded table: header row plus data rows of optional cells
(`none` models a missing value / NaN). -/
structure Table where
  headers : List Str
  rows : List (List (Option Str))

/-- Index of the first column with the given header, if any. -/
def colIndex : List Str → Str → Option Nat
  | [], _ => none
  | h :: hs, c => if h = c then some 0 else (colIndex hs c).map (· + 1)

/-- The cell of a row under a given header (first matching column);
`none` both for an absent column and for a missing value. -/
def cellAt : List Str → List (Option Str) → Str → Option Str
  | [], _, _ => none
  | _ :: _, [], _ => none
  | h :: hs, c :: cs, key => if h = key then c else cellAt hs cs key

/-- The column of the table under a given header, across all rows. -/
def colValues (tbl : Table) (col : Str) : List (Option Str) :=
  match colIndex tbl.headers col with
  | none => []
  | some i => tbl.rows.map (fun r => r.getD i none)

/-- Pandas `Series.unique()`: de-duplicate keeping the first occurrence
(`seen` accumulates the values already emitted). -/
def uniqFirst : List Str → List Str → List Str
  | [], _ => []
  | x :: xs, seen => if x ∈ seen then uniqFirst xs seen else x :: uniqFirst xs (x :: seen)

/-- `dropna().astype(str).unique().tolist()` over a column. -/
def uniqueVals (cells : List (Option Str)) : List Str :=
  uniqFirst (cells.filterMap id) []

/-- `get_orig_values` from the source.  `m` is the `norm_to_orig`
dictionary.  The Python guard `if orig_col and orig_col in
orig_df.columns` is truthiness on the header string followed by a
column-membership test. -/
def get_orig_values (m : List (Str × Str)) (tbl : Table) (norm_key : Str)
    (fallback : List Str) : List Str :=
  match List.lookup norm_key m with
  | none => fallback
  | some orig_col =>
    if orig_col ≠ [] ∧ tbl.headers.contains orig_col then
      let vals := uniqueVals (colValues tbl orig_col)
      if vals ≠ [] then vals else fallback
    else fallback

/-- The pagination fragment of the admin data view: when the table has
more rows than a page, slice `iloc[start_idx:end_idx]` with
`start_idx = (page - 1) * rows_per_page` and
`end_idx = start_idx + rows_per_page`; otherwise show everything. -/
def paginate (rows : List α) (rows_per_page page : Nat) : List α :=
  if rows.length > rows_per_page then
    let start_idx := (page - 1) * rows_per_page
    let end_idx := start_idx + rows_per_page
    (rows.drop start_idx).take (end_idx - start_idx)
  else rows

/-- A row of the admin view after the date column has been converted by
`pd.to_datetime`: the name and permit-type cells, and the date cell as
a (day, time-of-day) pair, `none` for NaT. -/
structure ARow where
  name : Option Str
  permit : Option Str
  date : Option (Int × Nat)
deriving DecidableEq

def strAll : Str := ['A', 'l', 'l']

/-- The date-range test of the source:
`(df[date_col].dt.date >= start_date) & (df[date_col].dt.date <= end_date)`;
`.dt.date` keeps only the day component, NaT compares false. -/
def inRange (s e : Int) : Option (Int × Nat) → Bool
  | some (d, _) => decide (s ≤ d) && decide (d ≤ e)
  | none => false

/-- The filter application of the admin data view: employee filter,
permit-type filter, then date filter, each applied only when selected
(`"All"` and `"No Filter"` mean not selected; the date branch also
requires a detected date column and both bounds, modelled by
`dateFilter` being `some`). -/
def filtered_df (rows : List ARow) (selected_name selected_permit : Str)
    (permit_col : Bool) (dateFilter : Option (Int × Int)) : List ARow :=
  let f1 := if selected_name ≠ strAll
    then rows.filter (fun r => r.name == some selected_name) else rows
  let f2 := if selected_permit ≠ strAll ∧ permit_col
    then f1.filter (fun r => r.permit == some selected_permit) else f1
  match dateFilter with
  | some (s, e) => f2.filter (fun r => inRange s e r.date)
  | none => f2

/-- Pandas `DataFrame.empty`: true when either axis has length zero. -/
def dfEmpty (t : Table) : Bool := t.rows.isEmpty || t.headers.isEmpty

/-- The `working_df` of the source: the loaded table with its headers
replaced by the canonical keys, or a fresh empty table when the loaded
table is empty. -/
def working_df (orig : Table) : Table :=
  if dfEmpty orig then ⟨[], []⟩ else ⟨normalized_cols orig.headers, orig.rows⟩

def reqNAME : Str := ['N', 'A', 'M', 'E']
def reqANUM : Str := ['A', 'N', 'U', 'M', 'B', 'E', 'R']

/-- `required_ok` from the source: the working table is nonempty and
has both required canonical columns. -/
def required_ok (orig : Table) : Bool :=
  !(dfEmpty (working_df orig)) && (working_df orig).headers.contains reqNAME
    && (working_df orig).headers.contains reqANUM

/-- What one page render shows, as far as the claims are concerned. -/
structure RenderOutcome where
  formEnabled : Bool
  missingColumnsError : Bool
  adminPanelShown : Bool
  wrongPasswordError : Bool

/-- The top-level control flow of the script: the entry form is shown
iff `required_ok`, otherwise the missing-columns error; the admin
panel opens iff a password was typed (`if admin_pass:` — the empty
string is falsy) and it equals the configured password, with a
rejection message on a wrong non-empty password. -/
def scriptOutcome (orig : Table) (admin_pass password : Str) : RenderOutcome :=
  ⟨required_ok orig,
   !(required_ok orig),
   !admin_pass.isEmpty && admin_pass == password,
   !admin_pass.isEmpty && !(admin_pass == password)⟩

/-- `emp_row` of the source:
`working_df[working_df[REQ_NAME] == employee].iloc[0]`, the first row
whose NAME cell equals the selected employee (`iloc[0]` is modelled as
`head?`). -/
def emp_row (tbl : Table) (employee : Str) : Option (List (Option Str)) :=
  (tbl.rows.filter (fun r => cellAt tbl.headers r reqNAME == some employee)).head?

/-- A derived read-only field of the submission form: the cell of the
selected employee's row under the given canonical key. -/
def fieldOf (tbl : Table) (employee : Str) (key : Str) : Option Str :=
  (emp_row tbl employee).bind (fun r => cellAt tbl.headers r key)

/-! ### Concrete sample data used in witnesses and counterexamples -/

def hdrName : Str := ['N', 'a', 'm', 'e']
def hdrANumber : Str := ['A', ' ', 'N', 'u', 'm', 'b', 'e', 'r']
def strBob : Str := ['B', 'o', 'b']
def strAlice : Str := ['A', 'l', 'i', 'c', 'e']
def strA1 : Str := ['A', '1']
def strA2 : Str := ['A', '2']
def strA3 : Str := ['A', '3']

/-- A working table (normalized headers) with two rows for the same
employee name. -/
def sampleTable : Table :=
  ⟨[reqNAME, reqANUM], [[some strBob, some strA1], [some strBob, some strA2]]⟩

/-- A further row matching the same employee name. -/
def dupRow : List (Option Str) := [some strBob, some strA3]

/-- A one-column table with duplicated values. -/
def namesTable : Table := ⟨[hdrName], [[some strAlice], [some strAlice], [some strBob]]⟩

/-- A table whose single header is the empty string. -/
def emptyHeaderTable : Table := ⟨[[]], [[some ['x']]]⟩

def fbSample : List Str := [['F', 'B']]

def rowBobIn : ARow := ⟨some strBob, none, some (6, 3)⟩
def rowBobOut : ARow := ⟨some strBob, none, some (20, 0)⟩
def rowAlice7 : ARow := ⟨some strAlice, none, some (7, 0)⟩
def rowBobNaT : ARow := ⟨some strBob, none, none⟩
def sampleRows : List ARow := [rowBobIn, rowBobOut, rowAlice7, rowBobNaT]

/-- A nonempty table lacking both required canonical columns. -/
def fooTable : Table := ⟨[['F', 'o', 'o']], [[some ['x']]]⟩

/-- A table with both required headers but no data rows. -/
def zeroRowTable : Table := ⟨[hdrName, hdrANumber], []⟩

/-! ### Helper lemmas: decimal suffixes and key disambiguation -/

theorem toDecAux_eq_digits : ∀ (fuel n : Nat), n ≤ fuel →
    toDecAux fuel n = ((Nat.digits 10 n).map Nat.digitChar).reverse := by
  intro fuel
  induction fuel with
  | zero =>
    intro n hn
    interval_cases n
    simp [toDecAux]
  | succ f ih =>
    intro n hn
    by_cases h0 : n = 0
    · simp [toDecAux, h0]
    · have hpos : 0 < n := Nat.pos_of_ne_zero h0
      have hdiv : n / 10 ≤ f := by
        have : n / 10 < n := Nat.div_lt_self hpos (by omega)
        omega
      rw [toDecAux, if_neg h0, ih _ hdiv, Nat.digits_def' (by omega : (1:ℕ) < 10) hpos]
      simp

theorem natSuffix_eq_digits (n : Nat) (hn : 0 < n) :
    natSuffix n = ((Nat.digits 10 n).map Nat.digitChar).reverse := by
  rw [natSuffix, if_neg (Nat.pos_iff_ne_zero.mp hn), toDecAux_eq_digits n n le_rfl]

theorem digitChar_inj_lt : ∀ a, a < 10 → ∀ b, b < 10 →
    Nat.digitChar a = Nat.digitChar b → a = b := by decide

theorem digitChar_ne_underscore : ∀ a, a < 10 → Nat.digitChar a ≠ '_' := by decide

theorem map_digitChar_inj : ∀ (l1 l2 : List Nat), (∀ d ∈ l1, d < 10) →
    (∀ d ∈ l2, d < 10) → l1.map Nat.digitChar = l2.map Nat.digitChar → l1 = l2 := by
  intro l1
  induction l1 with
  | nil => intro l2 _ _ h; cases l2 <;> simp_all
  | cons a l ih =>
    intro l2 h1 h2 h
    cases l2 with
    | nil => simp at h
    | cons b l2' =>
      simp only [List.map_cons, List.cons.injEq] at h
      have ha : a < 10 := h1 a (.head _)
      have hb : b < 10 := h2 b (.head _)
      have hab : a = b := digitChar_inj_lt a ha b hb h.1
      have := ih l2' (fun d hd => h1 d (.tail _ hd)) (fun d hd => h2 d (.tail _ hd)) h.2
      simp [hab, this]

theorem natSuffix_inj (m n : Nat) (hm : 0 < m) (hn : 0 < n)
    (h : natSuffix m = natSuffix n) : m = n := by
  rw [natSuffix_eq_digits m hm, natSuffix_eq_digits n hn] at h
  have h2 := List.reverse_injective h
  have h3 := map_digitChar_inj _ _
    (fun d hd => Nat.digits_lt_base (by omega) hd)
    (fun d hd => Nat.digits_lt_base (by omega) hd) h2
  exact Nat.digits_inj_iff.mp h3

theorem natSuffix_no_underscore (n : Nat) : '_' ∉ natSuffix n := by
  by_cases h0 : n = 0
  · simp [natSuffix, h0]
  · rw [natSuffix_eq_digits n (Nat.pos_of_ne_zero h0)]
    intro hmem
    rw [List.mem_reverse, List.mem_map] at hmem
    obtain ⟨d, hd, hdc⟩ := hmem
    exact digitChar_ne_underscore d (Nat.digits_lt_base (by omega) hd) hdc

theorem normalize_col_no_underscore (s : Str) : '_' ∉ normalize_col s := by
  intro h
  exact absurd (List.mem_filter.mp h).2 (by decide)

theorem append_underscore_inj (a : Str) : ∀ (b s t : Str), '_' ∉ a → '_' ∉ b →
    a ++ '_' :: s = b ++ '_' :: t → a = b ∧ s = t := by
  induction a with
  | nil =>
    intro b s t _ hb h
    cases b with
    | nil => simpa using h
    | cons c b2 =>
      simp only [List.nil_append, List.cons_append, List.cons.injEq] at h
      exact absurd (h.1 ▸ List.mem_cons_self c b2) hb
  | cons c a2 ih =>
    intro b s t ha hb h
    cases b with
    | nil =>
      simp only [List.cons_append, List.nil_append, List.cons.injEq] at h
      exact absurd (h.1 ▸ List.mem_cons_self c a2) (h.1 ▸ ha)
    | cons d b2 =>
      simp only [List.cons_append, List.cons.injEq] at h
      have ha2 : '_' ∉ a2 := fun hm => ha (List.mem_cons_of_mem c hm)
      have hb2 : '_' ∉ b2 := fun hm => hb (List.mem_cons_of_mem d hm)
      obtain ⟨hab, hst⟩ := ih b2 s t ha2 hb2 h.2
      exact ⟨by simp [h.1, hab], hst⟩

theorem keyOf_inj (b1 b2 : Str) (k1 k2 : Nat) (h1 : '_' ∉ b1) (h2 : '_' ∉ b2)
    (h : keyOf b1 k1 = keyOf b2 k2) : b1 = b2 ∧ k1 = k2 := by
  unfold keyOf at h
  by_cases e1 : k1 = 0 <;> by_cases e2 : k2 = 0
  · rw [if_pos e1, if_pos e2] at h; exact ⟨h, e1.trans e2.symm⟩
  · rw [if_pos e1, if_neg e2] at h
    have : '_' ∈ b1 := h ▸ List.mem_append_right b2 (List.mem_cons_self _ _)
    exact absurd this h1
  · rw [if_neg e1, if_pos e2] at h
    have : '_' ∈ b2 := h ▸ List.mem_append_right b1 (List.mem_cons_self _ _)
    exact absurd this h2
  · rw [if_neg e1, if_neg e2] at h
    obtain ⟨hb, hs⟩ := append_underscore_inj b1 b2 _ _ h1 h2 h
    exact ⟨hb, natSuffix_inj k1 k2 (Nat.pos_of_ne_zero e1) (Nat.pos_of_ne_zero e2) hs⟩

/-! ### Helper lemmas: the spec-described key sequence -/

theorem cntBase_append_one (b c : Str) (hist : List Str) :
    cntBase b (hist ++ [c]) = cntBase b hist + (if c == b then 1 else 0) := by
  unfold cntBase
  rw [List.filter_append, List.length_append]
  by_cases h : c == b <;> simp [List.filter_cons, h]

theorem cntBase_le_append (b : Str) (h1 h2 : List Str) :
    cntBase b h1 ≤ cntBase b (h1 ++ h2) := by
  unfold cntBase
  rw [List.filter_append, List.length_append]
  omega

theorem mem_specKeys : ∀ (cols hist : List Str) (key : Str), key ∈ specKeys cols hist →
    ∃ b k, key = keyOf b k ∧ '_' ∉ b ∧ cntBase b hist ≤ k := by
  intro cols
  induction cols with
  | nil => intro hist key h; simp [specKeys] at h
  | cons c rest ih =>
    intro hist key h
    rw [specKeys] at h
    rcases List.mem_cons.mp h with h1 | h2
    · exact ⟨normalize_col c, cntBase (normalize_col c) hist, h1,
        normalize_col_no_underscore c, le_rfl⟩
    · obtain ⟨b, k, hk, hb, hc⟩ := ih (hist ++ [normalize_col c]) key h2
      exact ⟨b, k, hk, hb, le_trans (cntBase_le_append b hist [normalize_col c]) hc⟩

theorem specKeys_nodup : ∀ (cols hist : List Str), (specKeys cols hist).Nodup := by
  intro cols
  induction cols with
  | nil => intro hist; simp [specKeys]
  | cons c rest ih =>
    intro hist
    rw [specKeys]
    refine List.Nodup.cons ?_ (ih (hist ++ [normalize_col c]))
    intro hmem
    obtain ⟨b, k, hk, hb, hc⟩ := mem_specKeys rest (hist ++ [normalize_col c]) _ hmem
    obtain ⟨hbeq, hkeq⟩ := keyOf_inj (normalize_col c) b _ k
      (normalize_col_no_underscore c) hb hk
    rw [← hbeq, cntBase_append_one, if_pos (by simp)] at hc
    omega

theorem specKeys_length : ∀ (cols hist : List Str),
    (specKeys cols hist).length = cols.length := by
  intro cols
  induction cols with
  | nil => intro hist; simp [specKeys]
  | cons c rest ih => intro hist; rw [specKeys]; simp [ih]

theorem seenMatches_nil : seenMatches [] [] := by
  intro b
  simp [List.lookup, cntBase]

theorem seenMatches_update (seen : List (Str × Nat)) (hist : List Str) (norm : Str)
    (hs : seenMatches seen hist) :
    seenMatches ((norm, cntBase norm hist) :: seen) (hist ++ [norm]) := by
  intro b
  by_cases hb : b = norm
  · subst hb
    simp [List.lookup_cons, cntBase_append_one]
  · have h1 : (b == norm) = false := by simp [hb]
    have h2 : (norm == b) = false := by simp [Ne.symm hb]
    simp only [List.lookup_cons, h1, cntBase_append_one, h2]
    rw [hs b]
    simp

theorem buildLoop_cons_none (col : Str) (rest : List Str) (seen : List (Str × Nat))
    (h : List.lookup (normalize_col col) seen = none) :
    buildLoop (col :: rest) seen =
      (normalize_col col :: (buildLoop rest ((normalize_col col, 0) :: seen)).1,
       (normalize_col col, col) :: (buildLoop rest ((normalize_col col, 0) :: seen)).2) := by
  simp only [buildLoop, h]

theorem buildLoop_cons_some (col : Str) (rest : List Str) (seen : List (Str × Nat)) (n : Nat)
    (h : List.lookup (normalize_col col) seen = some n) :
    buildLoop (col :: rest) seen =
      ((normalize_col col ++ '_' :: natSuffix (n + 1)) ::
        (buildLoop rest ((normalize_col col, n + 1) :: seen)).1,
       (normalize_col col ++ '_' :: natSuffix (n + 1), col) ::
        (buildLoop rest ((normalize_col col, n + 1) :: seen)).2) := by
  simp only [buildLoop, h]

theorem buildLoop_keys_eq_specKeys : ∀ (cols : List Str) (seen : List (Str × Nat))
    (hist : List Str), seenMatches seen hist →
    (buildLoop cols seen).1 = specKeys cols hist := by
  intro cols
  induction cols with
  | nil => intro seen hist _; simp [buildLoop, specKeys]
  | cons c rest ih =>
    intro seen hist hs
    rw [specKeys]
    have hlook := hs (normalize_col c)
    have hupd := seenMatches_update seen hist (normalize_col c) hs
    by_cases h0 : cntBase (normalize_col c) hist = 0
    · rw [if_pos h0] at hlook
      rw [h0] at hupd
      rw [buildLoop_cons_none c rest seen hlook]
      simp only [keyOf, if_pos h0, List.cons.injEq]
      exact ⟨trivial, ih _ _ hupd⟩
    · rw [if_neg h0] at hlook
      have hc : cntBase (normalize_col c) hist - 1 + 1 = cntBase (normalize_col c) hist := by
        omega
      rw [buildLoop_cons_some c rest seen _ hlook, hc]
      simp only [keyOf, if_neg h0, List.cons.injEq]
      exact ⟨trivial, ih _ _ hupd⟩

theorem normalized_cols_eq_specKeys (cols : List Str) :
    normalized_cols cols = specKeys cols [] :=
  buildLoop_keys_eq_specKeys cols [] [] seenMatches_nil

theorem buildLoop_pairs_eq_zip : ∀ (cols : List Str) (seen : List (Str × Nat)),
    (buildLoop cols seen).2 = (buildLoop cols seen).1.zip cols := by
  intro cols
  induction cols with
  | nil => intro seen; simp [buildLoop]
  | cons c rest ih =>
    intro seen
    rw [buildLoop]
    cases List.lookup (normalize_col c) seen with
    | none => simp [List.zip_cons_cons, ih]
    | some n => simp [List.zip_cons_cons, ih]

/-! ### Helper lemmas: generic list facts -/

theorem head?_filter_eq_find? (p : α → Bool) : ∀ (l : List α),
    (l.filter p).head? = l.find? p := by
  intro l
  induction l with
  | nil => rfl
  | cons a rest ih =>
    by_cases h : p a <;> simp [List.filter_cons, List.find?_cons, h, ih]

theorem lookup_mem : ∀ (l : List (Str × Str)) (a v : Str),
    List.lookup a l = some v → (a, v) ∈ l := by
  intro l
  induction l with
  | nil => intro a v h; simp [List.lookup] at h
  | cons p rest ih =>
    intro a v h
    obtain ⟨k, w⟩ := p
    rw [List.lookup_cons] at h
    by_cases hb : a = k
    · subst hb
      simp at h
      simp [h]
    · have hne : (a == k) = false := by simp [hb]
      rw [hne] at h
      exact List.mem_cons_of_mem _ (ih a v h)

theorem normalized_cols_length (cols : List Str) :
    (normalized_cols cols).length = cols.length := by
  rw [normalized_cols_eq_specKeys]
  exact specKeys_length cols []

theorem mem_uniqFirst : ∀ (l seen : List Str) (v : Str),
    v ∈ uniqFirst l seen ↔ v ∈ l ∧ v ∉ seen := by
  intro l
  induction l with
  | nil => intro seen v; simp [uniqFirst]
  | cons x xs ih =>
    intro seen v
    rw [uniqFirst]
    by_cases hx : x ∈ seen
    · rw [if_pos hx, ih]
      constructor
      · exact fun ⟨h1, h2⟩ => ⟨List.mem_cons_of_mem x h1, h2⟩
      · rintro ⟨h1, h2⟩
        rcases List.mem_cons.mp h1 with h | h
        · exact absurd (h ▸ hx) h2
        · exact ⟨h, h2⟩
    · rw [if_neg hx]
      constructor
      · intro hv
        rcases List.mem_cons.mp hv with h | h
        · exact ⟨h ▸ List.mem_cons_self x xs, h ▸ hx⟩
        · obtain ⟨h1, h2⟩ := (ih (x :: seen) v).mp h
          exact ⟨List.mem_cons_of_mem x h1,
            fun hs => h2 (List.mem_cons_of_mem x hs)⟩
      · rintro ⟨h1, h2⟩
        rcases List.mem_cons.mp h1 with h | h
        · exact h ▸ List.mem_cons_self x _
        · by_cases hvx : v = x
          · exact hvx ▸ List.mem_cons_self x _
          · exact List.mem_cons_of_mem x ((ih (x :: seen) v).mpr
              ⟨h, fun hs => (List.mem_cons.mp hs).elim hvx h2⟩)

theorem uniqFirst_nodup : ∀ (l seen : List Str), (uniqFirst l seen).Nodup := by
  intro l
  induction l with
  | nil => intro seen; simp [uniqFirst]
  | cons x xs ih =>
    intro seen
    rw [uniqFirst]
    by_cases hx : x ∈ seen
    · rw [if_pos hx]; exact ih seen
    · rw [if_neg hx]
      refine List.Nodup.cons ?_ (ih (x :: seen))
      intro hmem
      exact ((mem_uniqFirst xs (x :: seen) x).mp hmem).2 (List.mem_cons_self x seen)

/-! ### Claim theorems -/

/-- C7: `normalize_col` strips surrounding whitespace, uppercases, and
removes every character that is not an ASCII letter or digit: the
three example headers all normalize to `ANUMBER`, and every character
of any normalized header is an ASCII digit or uppercase letter. -/
theorem normalize_col_spec :
    normalize_col ['A', '-', 'N', 'u', 'm', 'b', 'e', 'r', ' '] =
      ['A', 'N', 'U', 'M', 'B', 'E', 'R'] ∧
    normalize_col ['a', ' ', 'n', 'u', 'm', 'b', 'e', 'r'] =
      ['A', 'N', 'U', 'M', 'B', 'E', 'R'] ∧
    normalize_col ['A', '_', 'N', 'U', 'M', 'B', 'E', 'R'] =
      ['A', 'N', 'U', 'M', 'B', 'E', 'R'] ∧
    ∀ s : Str, (normalize_col s).all isDigitOrUpper = true := by
  refine ⟨by decide, by decide, by decide, ?_⟩
  intro s
  rw [List.all_eq_true]
  intro c hc
  exact (List.mem_filter.mp hc).2

/-- C1, counterexample: on the repeated header sequence
`["Name", "Name"]` the build loop emits `["NAME", "NAME_1"]` — the
second occurrence is suffixed `_1` (the incremented counter), not
`_2` as the claim states. -/
theorem build_mapping_suffix_counterexample :
    normalized_cols [hdrName, hdrName] =
      [['N', 'A', 'M', 'E'], ['N', 'A', 'M', 'E', '_', '1']] ∧
    normalized_cols [hdrName, hdrName] ≠
      [['N', 'A', 'M', 'E'], ['N', 'A', 'M', 'E', '_', '2']] := by decide

/-- C1 (amended): when a base key has been seen before, the repeated
header's key is the base key suffixed with the per-base occurrence
counter, which is `1` for the second occurrence (`_2` only for the
third, and so on): every key equals `keyOf` of its base key and the
number of earlier headers sharing that base key, and
`["Name", "Name"]` maps to `["NAME", "NAME_1"]` with the first
occurrence unsuffixed. -/
theorem build_mapping_suffix_counts :
    (∀ cols : List Str, normalized_cols cols = specKeys cols []) ∧
    normalized_cols [hdrName, hdrName] =
      [['N', 'A', 'M', 'E'], ['N', 'A', 'M', 'E', '_', '1']] :=
  ⟨normalized_cols_eq_specKeys, by decide⟩

/-- C4: for every header sequence the emitted key sequence has the
same length as the input, its keys are pairwise distinct, and the
key-to-header dictionary pairs each key with the header it was
emitted for (so it is total and bijective over the columns). -/
theorem build_mapping_bijective (cols : List Str) :
    (normalized_cols cols).length = cols.length ∧
    (normalized_cols cols).Nodup ∧
    norm_to_orig cols = (normalized_cols cols).zip cols := by
  refine ⟨normalized_cols_length cols, ?_, buildLoop_pairs_eq_zip cols []⟩
  rw [normalized_cols_eq_specKeys]
  exact specKeys_nodup cols []

/-- C2, counterexample: on headers `["Name", "Start Time"]` the
function returns `none` even though a header contains the substring
"TIME" — there is no fallback to TIME-only matches, contradicting the
claim that `none` is returned only when no header contains either
substring. -/
theorem get_date_column_counterexample :
    get_date_column [hdrName, ['S', 't', 'a', 'r', 't', ' ', 'T', 'i', 'm', 'e']] = none ∧
    hasSub strTIME (upperStr ['S', 't', 'a', 'r', 't', ' ', 'T', 'i', 'm', 'e']) = true := by
  decide

/-- C2 (amended): `get_date_column` returns the first header (in
column order) whose uppercased text contains "DATE" but not "TIME",
and `none` when no such header exists; headers matching only via
"TIME" are never returned.  On `["Name", "Start Time", "Permit Date"]`
it returns `"Permit Date"`. -/
theorem get_date_column_spec :
    (∀ cols : List Str, get_date_column cols =
      cols.find? (fun col =>
        hasSub strDATE (upperStr col) && !(hasSub strTIME (upperStr col)))) ∧
    get_date_column [hdrName, ['S', 't', 'a', 'r', 't', ' ', 'T', 'i', 'm', 'e'],
        ['P', 'e', 'r', 'm', 'i', 't', ' ', 'D', 'a', 't', 'e']] =
      some ['P', 'e', 'r', 'm', 'i', 't', ' ', 'D', 'a', 't', 'e'] := by
  constructor
  · intro cols
    simp only [get_date_column]
    rw [← head?_filter_eq_find?]
    congr 1
    apply List.filter_congr
    intro col _
    by_cases h1 : hasSub strDATE (upperStr col) <;>
      by_cases h2 : hasSub strTIME (upperStr col) <;> simp [h1, h2]
  · decide

/-- C3, counterexample: on a table whose single header is the empty
string, the key `""` maps to the column `""`, which is present in the
table and yields the nonempty de-duplicated value list `["x"]` — yet
the function returns the fallback, because the Python truthiness test
`if orig_col` treats the empty header name as absent. -/
theorem values_for_counterexample :
    List.lookup [] (norm_to_orig emptyHeaderTable.headers) = some [] ∧
    emptyHeaderTable.headers.contains [] = true ∧
    uniqueVals (colValues emptyHeaderTable []) = [['x']] ∧
    get_orig_values (norm_to_orig emptyHeaderTable.headers) emptyHeaderTable [] fbSample =
      fbSample ∧
    fbSample ≠ [['x']] := by decide

/-- C3 (amended): `get_orig_values` returns the de-duplicated
(first-occurrence order) present values of the whole column that the
canonical key maps to, and returns the fallback sequence verbatim
whenever the key maps to no column, the column yields no values, or
the mapped original header is the empty string (which the code's
truthiness test treats as absent); the de-duplicated list has no
duplicates and contains exactly the values present in the column. -/
theorem values_for_spec (tbl : Table) (key : Str) (fb : List Str) :
    (List.lookup key (norm_to_orig tbl.headers) = none →
      get_orig_values (norm_to_orig tbl.headers) tbl key fb = fb) ∧
    (∀ col, List.lookup key (norm_to_orig tbl.headers) = some col →
      ((col = [] ∨ uniqueVals (colValues tbl col) = []) →
        get_orig_values (norm_to_orig tbl.headers) tbl key fb = fb) ∧
      (col ≠ [] → uniqueVals (colValues tbl col) ≠ [] →
        get_orig_values (norm_to_orig tbl.headers) tbl key fb =
          uniqueVals (colValues tbl col))) ∧
    (∀ cells : List (Option Str), (uniqueVals cells).Nodup ∧
      ∀ v, v ∈ uniqueVals cells ↔ some v ∈ cells) := by
  refine ⟨?_, ?_, ?_⟩
  · intro h
    simp [get_orig_values, h]
  · intro col hcol
    have hmem : col ∈ tbl.headers := by
      have hm := lookup_mem _ _ _ hcol
      rw [norm_to_orig, buildLoop_pairs_eq_zip] at hm
      exact (List.of_mem_zip hm).2
    have hcont : tbl.headers.contains col = true := by
      simp [List.contains, List.elem_iff]
      exact hmem
    constructor
    · rintro (h | h)
      · simp [get_orig_values, hcol, h]
      · by_cases hc0 : col = []
        · simp [get_orig_values, hcol, hc0]
        · simp [get_orig_values, hcol, hc0, hcont, h]
    · intro h1 h2
      simp only [get_orig_values, hcol]
      rw [if_pos ⟨h1, hcont⟩]
      simp [h2]
  · intro cells
    refine ⟨uniqFirst_nodup _ [], ?_⟩
    intro v
    rw [uniqueVals, mem_uniqFirst]
    simp [List.mem_filterMap]

/-- Witness for `values_for_spec`: a concrete column with a duplicated
value comes back de-duplicated in first-occurrence order, and a key
with no mapped column yields the fallback verbatim. -/
theorem values_for_spec_witness :
    get_orig_values (norm_to_orig namesTable.headers) namesTable
      ['N', 'A', 'M', 'E'] fbSample = [strAlice, strBob] ∧
    get_orig_values (norm_to_orig namesTable.headers) namesTable
      ['X'] fbSample = fbSample := by
  have h := values_for_spec namesTable ['N', 'A', 'M', 'E'] fbSample
  have h2 := values_for_spec namesTable ['X'] fbSample
  refine ⟨?_, h2.1 (by decide)⟩
  have h3 := (h.2.1 hdrName (by decide)).2 (by decide) (by decide)
  rw [h3]
  decide

/-- C5: with an employee-equality filter and a date-range filter both
selected, the admin filter pipeline returns exactly the rows
satisfying both predicates conjunctively; the date-range test uses
only the day component of a timestamp (time of day is discarded), is
inclusive at both bounds, and rejects missing dates; an empty result
is just a zero-row list. -/
theorem filtered_df_conjunctive (rows : List ARow) (nm : Str) (pc : Bool)
    (s e : Int) (hnm : nm ≠ strAll) :
    filtered_df rows nm strAll pc (some (s, e)) =
      rows.filter (fun r => (r.name == some nm) && inRange s e r.date) ∧
    (∀ d t t2, inRange s e (some (d, t)) = inRange s e (some (d, t2))) ∧
    (∀ d t, inRange s e (some (d, t)) = (decide (s ≤ d) && decide (d ≤ e))) ∧
    inRange s e none = false := by
  refine ⟨?_, fun d t t2 => rfl, fun d t => rfl, rfl⟩
  simp only [filtered_df]
  rw [if_pos hnm, if_neg (by simp), List.filter_filter]
  exact List.filter_congr (fun r _ => Bool.and_comm _ _)

/-- Witness for `filtered_df_conjunctive`: on concrete rows, only the
row with the matching name and an in-range day survives, and a range
matching nothing yields the empty row list rather than an error. -/
theorem filtered_df_conjunctive_witness :
    filtered_df sampleRows strBob strAll true (some (5, 10)) = [rowBobIn] ∧
    filtered_df sampleRows strBob strAll true (some (100, 200)) = [] := by
  have h1 := (filtered_df_conjunctive sampleRows strBob true 5 10 (by decide)).1
  have h2 := (filtered_df_conjunctive sampleRows strBob true 100 200 (by decide)).1
  constructor
  · rw [h1]; decide
  · rw [h2]; decide

/-- C6: for a positive page size and a 1-based page number within
[1, ceil(len/size)], the pagination logic returns exactly the rows
with indices in [(page-1)*size, min(page*size, len)). -/
theorem paginate_slice (rows : List α) (rows_per_page page : Nat)
    (hs : 0 < rows_per_page) (h1 : 1 ≤ page)
    (h2 : page ≤ (rows.length + rows_per_page - 1) / rows_per_page) :
    paginate rows rows_per_page page =
      (rows.take (min (page * rows_per_page) rows.length)).drop
        ((page - 1) * rows_per_page) := by
  by_cases hlen : rows.length > rows_per_page
  · have hbranch : paginate rows rows_per_page page =
        (rows.drop ((page - 1) * rows_per_page)).take
          ((page - 1) * rows_per_page + rows_per_page - (page - 1) * rows_per_page) := by
      unfold paginate
      rw [if_pos hlen]
    rw [hbranch, List.drop_take, List.take_eq_take, List.length_drop]
    have hps : page * rows_per_page = (page - 1) * rows_per_page + rows_per_page := by
      cases page with
      | zero => omega
      | succ q => simp [Nat.succ_mul]
    rw [hps]
    generalize (page - 1) * rows_per_page = a
    omega
  · have hbranch : paginate rows rows_per_page page = rows := by
      unfold paginate
      rw [if_neg hlen]
    have hle : rows.length ≤ rows_per_page := by omega
    have hdiv : (rows.length + rows_per_page - 1) / rows_per_page < 2 := by
      rw [Nat.div_lt_iff_lt_mul hs]
      omega
    have hp : page = 1 := by
      have hp2 : page < 2 := Nat.lt_of_le_of_lt h2 hdiv
      omega
    subst hp
    rw [hbranch]
    simp only [Nat.sub_self, Nat.zero_mul, List.drop_zero, Nat.one_mul]
    rw [Nat.min_eq_right hle, List.take_length]

/-- Witness for `paginate_slice`: a 23-row table with page size 10 and
page number 3 yields exactly the last 3 rows (the rows with 0-based
indices 20, 21 and 22, that is rows 21 to 23). -/
theorem paginate_slice_witness :
    paginate (List.range 23) 10 3 =
      ((List.range 23).take (min (3 * 10) (List.range 23).length)).drop ((3 - 1) * 10) ∧
    paginate (List.range 23) 10 3 = [20, 21, 22] := by
  refine ⟨paginate_slice (List.range 23) 10 3 (by decide) (by decide) (by decide), ?_⟩
  decide

/-- C8: whenever the working table lacks either required canonical
column (NAME or ANUMBER), the entry form is disabled and the
missing-columns error is shown instead, while the admin panel gate
behaves exactly as the password comparison, independent of the
table. -/
theorem missing_columns_disable_form (orig : Table) (inp pwd : Str)
    (h : reqNAME ∉ (working_df orig).headers ∨ reqANUM ∉ (working_df orig).headers) :
    (scriptOutcome orig inp pwd).formEnabled = false ∧
    (scriptOutcome orig inp pwd).missingColumnsError = true ∧
    (scriptOutcome orig inp pwd).adminPanelShown = (!inp.isEmpty && inp == pwd) ∧
    (scriptOutcome orig inp pwd).wrongPasswordError = (!inp.isEmpty && !(inp == pwd)) := by
  have hro : required_ok orig = false := by
    unfold required_ok
    rcases h with h | h
    · have hc : (working_df orig).headers.contains reqNAME = false := by
        simp [List.contains, List.elem_iff]
        exact h
      rw [hc]
      simp
    · have hc : (working_df orig).headers.contains reqANUM = false := by
        simp [List.contains, List.elem_iff]
        exact h
      rw [hc]
      simp
  simp [scriptOutcome, hro]

/-- Witness for `missing_columns_disable_form`: a concrete nonempty
table without the required columns disables the form and shows the
error, yet the admin panel still opens on the correct password. -/
theorem missing_columns_disable_form_witness :
    (scriptOutcome fooTable ['p'] ['p']).formEnabled = false ∧
    (scriptOutcome fooTable ['p'] ['p']).missingColumnsError = true ∧
    (scriptOutcome fooTable ['p'] ['p']).adminPanelShown = true := by
  have h := missing_columns_disable_form fooTable ['p'] ['p'] (by decide)
  refine ⟨h.1, h.2.1, ?_⟩
  rw [h.2.2.1]
  decide

/-- C9: the entry form is enabled iff the loaded table has at least one
data row, a nonempty header row, and both required canonical columns
among its normalized headers; the missing-columns error shows exactly
when the form is disabled.  In particular a zero-row table whose
header row does include both required columns still disables the form
with that same error. -/
theorem form_requires_data_rows (orig : Table) (inp pwd : Str) :
    (scriptOutcome orig inp pwd).formEnabled =
      (!orig.rows.isEmpty && !orig.headers.isEmpty
        && (normalized_cols orig.headers).contains reqNAME
        && (normalized_cols orig.headers).contains reqANUM) ∧
    (scriptOutcome orig inp pwd).missingColumnsError =
      !(scriptOutcome orig inp pwd).formEnabled ∧
    (scriptOutcome zeroRowTable inp pwd).formEnabled = false ∧
    (scriptOutcome zeroRowTable inp pwd).missingColumnsError = true := by
  refine ⟨?_, rfl, (by decide : required_ok zeroRowTable = false),
    (by decide : (!(required_ok zeroRowTable)) = true)⟩
  show required_ok orig = _
  by_cases he : dfEmpty orig = true
  · have h1 : working_df orig = ⟨[], []⟩ := by rw [working_df, if_pos he]
    have h2 : required_ok orig = false := by
      rw [required_ok, h1]
      simp [dfEmpty]
    rw [h2, dfEmpty] at *
    rcases (Bool.or_eq_true _ _).mp he with h | h <;> simp [h]
  · have he2 : dfEmpty orig = false := by simp_all
    have h1 : working_df orig = ⟨normalized_cols orig.headers, orig.rows⟩ := by
      rw [working_df, if_neg (by simp [he2])]
    have hrows : orig.rows.isEmpty = false := by
      rw [dfEmpty] at he2
      rcases Bool.or_eq_false_iff.mp he2 with ⟨ha, _⟩
      exact ha
    have hhead : orig.headers.isEmpty = false := by
      rw [dfEmpty] at he2
      rcases Bool.or_eq_false_iff.mp he2 with ⟨_, hb⟩
      exact hb
    have hnorm : (normalized_cols orig.headers).isEmpty = false := by
      rcases hni : (normalized_cols orig.headers).isEmpty with _ | _
      · rfl
      · exfalso
        have := List.isEmpty_iff.mp hni
        have hlen := normalized_cols_length orig.headers
        rw [this] at hlen
        have : orig.headers = [] := List.length_eq_zero.mp hlen.symm
        rw [this] at hhead
        simp [List.isEmpty] at hhead
    rw [required_ok, h1]
    show (!(dfEmpty ⟨normalized_cols orig.headers, orig.rows⟩) && _ && _) = _
    rw [dfEmpty]
    show (!(orig.rows.isEmpty || (normalized_cols orig.headers).isEmpty) && _ && _) = _
    rw [hrows, hnorm, hhead]
    simp

/-- C10: the selected employee's row is the first row, in table order,
whose NAME cell equals the selected name; appending further matching
rows after it does not change the selection; and every derived
read-only field is read from that first matching row. -/
theorem emp_row_first_match (tbl : Table) (e : Str) :
    emp_row tbl e = tbl.rows.find? (fun r => cellAt tbl.headers r reqNAME == some e) ∧
    (∀ extra, (tbl.rows.find? (fun r => cellAt tbl.headers r reqNAME == some e)).isSome = true →
      emp_row ⟨tbl.headers, tbl.rows ++ extra⟩ e = emp_row tbl e) ∧
    (∀ key, fieldOf tbl e key =
      (tbl.rows.find? (fun r => cellAt tbl.headers r reqNAME == some e)).bind
        (fun r => cellAt tbl.headers r key)) := by
  have hmain : emp_row tbl e =
      tbl.rows.find? (fun r => cellAt tbl.headers r reqNAME == some e) := by
    rw [emp_row]
    exact head?_filter_eq_find? _ tbl.rows
  refine ⟨hmain, ?_, ?_⟩
  · intro extra hs
    rw [emp_row, emp_row]
    rw [head?_filter_eq_find?, head?_filter_eq_find?]
    show List.find? _ (tbl.rows ++ extra) = _
    rw [List.find?_append]
    obtain ⟨v, hv⟩ := Option.isSome_iff_exists.mp hs
    rw [hv]
    rfl
  · intro key
    rw [fieldOf, hmain]

/-- Witness for `emp_row_first_match`: with two rows for the same
employee the first one is selected, appending a third matching row
changes nothing, and the personnel-number field is read from the
first row. -/
theorem emp_row_first_match_witness :
    emp_row sampleTable strBob = some [some strBob, some strA1] ∧
    emp_row ⟨sampleTable.headers, sampleTable.rows ++ [dupRow]⟩ strBob =
      emp_row sampleTable strBob ∧
    fieldOf sampleTable strBob reqANUM = some strA1 := by
  have h := emp_row_first_match sampleTable strBob
  refine ⟨?_, h.2.1 [dupRow] (by decide), ?_⟩
  · rw [h.1]; decide
  · rw [h.2.2 reqANUM]; decide
